import Mathlib

/-!
Verification of the `exotic-iter` iterator-combinator library.

The Rust source consists of two files:
* `src/lib.rs` — the trait `ExoticIteratorExt` with the terminal combinators
  `at_least`, `at_most`, `exactly_n`, `exactly_m_n`, `all_or_none`,
  `perfectly_balanced`, and the adapter constructor `alternate`;
* `src/alternate.rs` — the `Alternate` iterator adapter.

We embed iterators shallowly as Lean `List`s: pulling the next item is taking
the head of the remaining list, exhaustion is the empty list.  Predicates are
Bool-valued functions.  Where a claim is about which items are pulled and how
often a predicate is invoked, the embedded combinator additionally returns the
invocation log: the list of items on which the predicate was called, in call
order (the Rust code calls each predicate exactly once per item it pulls
through it, so the pull sequence and the invocation sequence coincide).
-/

set_option autoImplicit false

namespace ExoticIter

universe u

variable {α : Type u}

/-- Embedding of `at_least` (src/lib.rs:107-109):
`self.filter(predicate).take(n).count() == n`.
`filter` over a list is `List.filter`, `take(n).count()` is the length of the
`n`-truncation, and `== n` is the final Boolean comparison. -/
def at_least (l : List α) (n : Nat) (p : α → Bool) : Bool :=
  ((l.filter p).take n).length == n

/-- One pull of Rust's `Filter` iterator (`Iterator::next` of `filter`):
repeatedly pull from the inner list and invoke the predicate until an item
passes or the inner list is exhausted.  Returns the yielded item (if any),
the remaining inner list, and the log of items the predicate was invoked on
during this pull, in order. -/
def filterNextLog (p : α → Bool) : List α → Option α × List α × List α
  | [] => (none, [], [])
  | x :: xs =>
    if p x then (some x, xs, [x])
    else
      let r := filterNextLog p xs
      (r.1, r.2.1, x :: r.2.2)

/-- Rust's `Filter::count`: pulls every remaining inner item, invoking the
predicate once on each, and counts the passes.  Returns the count and the
invocation log (which is the whole remaining inner list, in order). -/
def filterCountLog (p : α → Bool) : List α → Nat × List α
  | [] => (0, [])
  | x :: xs =>
    let r := filterCountLog p xs
    ((if p x then 1 else 0) + r.1, x :: r.2)

/-- Rust's `filter(p).skip(n).count()` pipeline: `Skip::count` first advances
the filtered iterator past `n` items (each such advance is one `filterNextLog`
pull); if the filtered iterator exhausts during the advance the count is `0`,
otherwise the remaining filtered items are counted by `filterCountLog`.
Returns the count and the full predicate-invocation log. -/
def skipFilterCountLog (p : α → Bool) : Nat → List α → Nat × List α
  | 0, l => filterCountLog p l
  | n + 1, l =>
    match filterNextLog p l with
    | (some _, rest, log1) =>
      let r := skipFilterCountLog p n rest
      (r.1, log1 ++ r.2)
    | (none, _, log1) => (0, log1)

/-- Embedding of `at_most` (src/lib.rs:112-114):
`self.filter(predicate).skip(n).count() == 0`. -/
def at_most (l : List α) (n : Nat) (p : α → Bool) : Bool :=
  (skipFilterCountLog p n l).1 == 0

/-- Predicate-invocation log of `at_most`: the items the predicate was invoked
on (equivalently, the items pulled from the source), in order. -/
def at_mostLog (l : List α) (n : Nat) (p : α → Bool) : List α :=
  (skipFilterCountLog p n l).2

/-- Loop body of `exactly_n` (src/lib.rs:116-128), with the running match
count threaded through, returning the verdict and the list of items consumed
(pulled and tested), in order. -/
def exactlyNGo (p : α → Bool) (n : Nat) : List α → Nat → Bool × List α
  | [], count => (count == n, [])
  | x :: xs, count =>
    let count' := if p x then count + 1 else count
    if n < count' then (false, [x])
    else
      let r := exactlyNGo p n xs count'
      (r.1, x :: r.2)

/-- Embedding of `exactly_n` (src/lib.rs:116-128). -/
def exactly_n (l : List α) (n : Nat) (p : α → Bool) : Bool :=
  (exactlyNGo p n l 0).1

/-- Items consumed by `exactly_n`, in order. -/
def exactlyNConsumed (l : List α) (n : Nat) (p : α → Bool) : List α :=
  (exactlyNGo p n l 0).2

/-- A single predicate invocation inside `exactly_m_n`: either `predicate_m`
or `predicate_n` applied to an item. -/
inductive PredCall (α : Type u) : Type u where
  | callM (x : α)
  | callN (x : α)
deriving DecidableEq, Repr

/-- Loop body of `exactly_m_n` (src/lib.rs:130-150), with both running counts
threaded through.  Returns the verdict and the full predicate-invocation log:
for each pulled item the loop body invokes `predicate_m` and then
`predicate_n`, unconditionally, before testing whether either count exceeded
its threshold. -/
def exactlyMNGo (pm pn : α → Bool) (m n : Nat) :
    List α → Nat → Nat → Bool × List (PredCall α)
  | [], cm, cn => (cm == m && cn == n, [])
  | x :: xs, cm, cn =>
    let cm' := if pm x then cm + 1 else cm
    let cn' := if pn x then cn + 1 else cn
    if m < cm' ∨ n < cn' then (false, [.callM x, .callN x])
    else
      let r := exactlyMNGo pm pn m n xs cm' cn'
      (r.1, .callM x :: .callN x :: r.2)

/-- Embedding of `exactly_m_n` (src/lib.rs:130-150). -/
def exactly_m_n (l : List α) (m : Nat) (pm : α → Bool) (n : Nat) (pn : α → Bool) : Bool :=
  (exactlyMNGo pm pn m n l 0 0).1

/-- Predicate-invocation log of `exactly_m_n`, in call order. -/
def exactlyMNLog (l : List α) (m : Nat) (pm : α → Bool) (n : Nat) (pn : α → Bool) :
    List (PredCall α) :=
  (exactlyMNGo pm pn m n l 0 0).2

/-- Loop body of `perfectly_balanced` (src/lib.rs:152-163), threading the
match count and the total count; at exhaustion the verdict is
`total % 2 == 0 && total / 2 == count`. -/
def pbGo (p : α → Bool) : List α → Nat → Nat → Bool
  | [], count, total => total % 2 == 0 && total / 2 == count
  | x :: xs, count, total => pbGo p xs (if p x then count + 1 else count) (total + 1)

/-- Embedding of `perfectly_balanced` (src/lib.rs:152-163). -/
def perfectly_balanced (l : List α) (p : α → Bool) : Bool :=
  pbGo p l 0 0

/-- Embedding of the `Alternate` struct (src/alternate.rs:4-9): the two owned
source iterators as lists of their remaining items, the turn flag `odd`
(`false` = first source's turn) and the `done` flag. -/
structure Alternate (α : Type u) : Type u where
  a : List α
  b : List α
  odd : Bool
  done : Bool
deriving Repr

/-- Embedding of `Alternate::new` (src/alternate.rs:16-23). -/
def Alternate.new (a b : List α) : Alternate α :=
  { a := a, b := b, odd := false, done := false }

/-- Embedding of `Alternate::next` (src/alternate.rs:28-43): if `done`,
return exhaustion without touching either source; otherwise pull from the
source selected by `odd`, set `done` when that pull signalled exhaustion,
and toggle `odd` unconditionally. -/
def Alternate.next (st : Alternate α) : Option α × Alternate α :=
  if st.done then (none, st)
  else if st.odd then
    match st.b with
    | [] => (none, { st with odd := !st.odd, done := true })
    | y :: ys => (some y, { st with b := ys, odd := !st.odd })
  else
    match st.a with
    | [] => (none, { st with odd := !st.odd, done := true })
    | x :: xs => (some x, { st with a := xs, odd := !st.odd })

/-- Items produced by pulling the `Alternate` iterator up to `fuel` times,
stopping at the first exhaustion signal. -/
def Alternate.run : Nat → Alternate α → List α
  | 0, _ => []
  | fuel + 1, st =>
    match st.next with
    | (some x, st') => x :: Alternate.run fuel st'
    | (none, _) => []

/-- The complete output sequence of `alternate(a, b)` (src/lib.rs:182-184):
the iterator yields at most `a.length + b.length` items, so this fuel drives
it to its exhaustion signal. -/
def Alternate.out (a b : List α) : List α :=
  Alternate.run (a.length + b.length + 1) (Alternate.new a b)

/-! Spec-side definitions.  The following definitions are written from the
specification's words, not from the Rust source; each claim theorem compares
the source-derived definitions above against them. -/

/-- Formalisation of the spec's stop-at-the-k-th-match rule: the prefix of
the sequence consumed when traversal stops at the `k`-th item satisfying `p`
(inclusive), or the whole sequence if it holds fewer than `k` matches. -/
def specStopAtMatch (p : α → Bool) : Nat → List α → List α
  | _, [] => []
  | k, x :: xs =>
    if p x then
      if k ≤ 1 then [x] else x :: specStopAtMatch p (k - 1) xs
    else
      x :: specStopAtMatch p k xs

/-- Formalisation of the spec's fail-fast rule for `exactly_m_n`: the items
pulled, up to and including the first one at which either running match count
exceeds its threshold, or the whole sequence if neither count ever does. -/
def specMNConsumed (pm pn : α → Bool) (m n : Nat) : List α → Nat → Nat → List α
  | [], _, _ => []
  | x :: xs, cm, cn =>
    let cm' := if pm x then cm + 1 else cm
    let cn' := if pn x then cn + 1 else cn
    if m < cm' ∨ n < cn' then [x] else x :: specMNConsumed pm pn m n xs cm' cn'

/-- The invocation log prescribed by the spec for `exactly_m_n`: for each
pulled item, one call to `predicate_m` followed by one call to
`predicate_n`. -/
def tagCalls : List α → List (PredCall α)
  | [] => []
  | x :: xs => .callM x :: .callN x :: tagCalls xs

/-- Formalisation of the spec's alternating-merge output: `a[0], b[0], a[1],
b[1], ...`, starting with the first source and stopping at the first
exhausted source. -/
def specAlternate : List α → List α → List α
  | [], _ => []
  | x :: xs, ys => x :: specAlternate ys xs
termination_by a b => a.length + b.length
decreasing_by simp [List.length_cons]; omega

/-! Helper lemmas about the `at_most` pipeline. -/

theorem filterCountLog_eq (p : α → Bool) (l : List α) :
    filterCountLog p l = (l.countP p, l) := by
  induction l with
  | nil => rfl
  | cons x xs ih =>
    by_cases h : p x = true <;>
      simp [filterCountLog, ih, List.countP_cons, h, Nat.add_comm]

theorem filterNextLog_append (p : α → Bool) (l : List α) :
    (filterNextLog p l).2.2 ++ (filterNextLog p l).2.1 = l := by
  induction l with
  | nil => rfl
  | cons x xs ih =>
    by_cases h : p x = true <;> simp [filterNextLog, h, ih]

theorem filterNextLog_none (p : α → Bool) (l : List α)
    (h : (filterNextLog p l).1 = none) :
    (filterNextLog p l).2.2 = l ∧ (filterNextLog p l).2.1 = [] ∧ l.countP p = 0 := by
  induction l with
  | nil => simp [filterNextLog]
  | cons x xs ih =>
    by_cases hx : p x = true
    · simp [filterNextLog, hx] at h
    · simp only [filterNextLog, hx] at h ⊢
      simp only [Bool.false_eq_true, if_false] at h ⊢
      rcases ih h with ⟨h1, h2, h3⟩
      simp [h1, h2, List.countP_cons, hx, h3]

theorem filterNextLog_some (p : α → Bool) (l : List α) (x : α)
    (h : (filterNextLog p l).1 = some x) :
    ((filterNextLog p l).2.2).countP p = 1 := by
  induction l with
  | nil => simp [filterNextLog] at h
  | cons y ys ih =>
    by_cases hy : p y = true
    · simp [filterNextLog, hy]
    · simp only [filterNextLog, hy] at h ⊢
      simp only [Bool.false_eq_true, if_false] at h ⊢
      simp [List.countP_cons, hy, ih h]

theorem skipFilterCountLog_snd (p : α → Bool) (n : Nat) (l : List α) :
    (skipFilterCountLog p n l).2 = l := by
  induction n generalizing l with
  | zero => simp [skipFilterCountLog, filterCountLog_eq]
  | succ n ih =>
    rcases hfl : filterNextLog p l with ⟨o, rest, log1⟩
    cases o with
    | some x =>
      have happ := filterNextLog_append p l
      rw [hfl] at happ
      simpa [skipFilterCountLog, hfl, ih] using happ
    | none =>
      have hn := filterNextLog_none p l (by rw [hfl])
      rw [hfl] at hn
      simp only [skipFilterCountLog, hfl]
      exact hn.1

theorem skipFilterCountLog_fst (p : α → Bool) (n : Nat) (l : List α) :
    (skipFilterCountLog p n l).1 = l.countP p - n := by
  induction n generalizing l with
  | zero => simp [skipFilterCountLog, filterCountLog_eq]
  | succ n ih =>
    rcases hfl : filterNextLog p l with ⟨o, rest, log1⟩
    cases o with
    | some x =>
      have happ := filterNextLog_append p l
      have hone := filterNextLog_some p l x (by rw [hfl])
      rw [hfl] at happ hone
      have hcnt : l.countP p = 1 + rest.countP p := by
        rw [← happ, List.countP_append, hone]
      simp [skipFilterCountLog, hfl, ih, hcnt]
      omega
    | none =>
      have hn := filterNextLog_none p l (by rw [hfl])
      rw [hfl] at hn
      simp [skipFilterCountLog, hfl, hn.2.2]

/-! Claim theorems for the counting combinators `at_least` and `at_most`. -/

/-- C1: `at_least(S, n, P)` is true iff the number of items in S satisfying P
is at least n; in particular on the empty sequence it is true for n = 0 and
false for every n > 0. -/
theorem at_least_iff_count (l : List α) (n : Nat) (p : α → Bool) :
    (at_least l n p = true ↔ n ≤ l.countP p) ∧
    at_least ([] : List α) 0 p = true ∧
    ∀ m : Nat, at_least ([] : List α) (m + 1) p = false := by
  refine ⟨?_, rfl, fun m => rfl⟩
  simp [at_least, List.length_take, beq_iff_eq, List.countP_eq_length_filter,
    min_eq_left_iff]

/-- C2: `at_most(S, n, P)` is true iff the number of items in S satisfying P
is at most n; in particular it is true on the empty sequence for every n. -/
theorem at_most_iff_count (l : List α) (n : Nat) (p : α → Bool) :
    (at_most l n p = true ↔ l.countP p ≤ n) ∧ at_most ([] : List α) n p = true := by
  constructor
  · simp [at_most, skipFilterCountLog_fst, beq_iff_eq, Nat.sub_eq_zero_iff_le]
  · simp [at_most, skipFilterCountLog_fst, beq_iff_eq]

/-- C3 counterexample: with n = 0, predicate `(· == 1)` and sequence
`[1, 1, 1]`, the (n+1)-th match is the very first item, so the claimed
termination rule requires inspecting only 1 item; `at_most` nevertheless
inspects all 3 items. -/
theorem at_most_no_short_circuit_cex :
    at_mostLog [1, 1, 1] 0 (fun x => x == 1) = [1, 1, 1] ∧
    specStopAtMatch (fun x => x == 1) (0 + 1) [1, 1, 1] = [1] ∧
    ¬ (at_mostLog [1, 1, 1] 0 (fun x => x == 1)).length ≤
        (specStopAtMatch (fun x => x == 1) (0 + 1) [1, 1, 1]).length := by
  decide

/-- C3 (amended): `at_most(S, n, P)` does not stop early at the (n+1)-th
match; the number of items it pulls and inspects is always the full length of
S, whatever n, P and the positions of the matches are. -/
theorem at_most_inspects_all (l : List α) (n : Nat) (p : α → Bool) :
    (at_mostLog l n p).length = l.length := by
  simp [at_mostLog, skipFilterCountLog_snd]

/-- C10: `at_most(S, n, P)` pulls every item of S and invokes the predicate
exactly once on each of them, in sequence order, before returning: its
predicate-invocation log is exactly S. -/
theorem at_most_full_traversal (l : List α) (n : Nat) (p : α → Bool) :
    at_mostLog l n p = l :=
  skipFilterCountLog_snd p n l

/-! Helper lemmas about `exactly_n`. -/

theorem exactlyNGo_fst (p : α → Bool) (n : Nat) :
    ∀ (l : List α) (c : Nat), ((exactlyNGo p n l c).1 = true ↔ c + l.countP p = n) := by
  intro l
  induction l with
  | nil => intro c; simp [exactlyNGo, beq_iff_eq]
  | cons x xs ih =>
    intro c
    by_cases hx : p x = true
    · by_cases hlt : n < c + 1
      · simp only [exactlyNGo, hx, if_true, hlt]
        simp [List.countP_cons, hx]
        omega
      · simp only [exactlyNGo, hx, if_true, hlt, if_false]
        simp [List.countP_cons, hx, ih]
        omega
    · by_cases hlt : n < c
      · simp only [exactlyNGo, hx]
        simp [hlt, List.countP_cons, hx]
        omega
      · simp only [exactlyNGo, hx]
        simp [hlt, List.countP_cons, hx, ih]

theorem exactlyNGo_snd (p : α → Bool) (n : Nat) :
    ∀ (l : List α) (c : Nat), c ≤ n →
      (exactlyNGo p n l c).2 =
        (if n < c + l.countP p then specStopAtMatch p (n + 1 - c) l else l) := by
  intro l
  induction l with
  | nil => intro c _; simp [exactlyNGo, specStopAtMatch]
  | cons x xs ih =>
    intro c hc
    by_cases hx : p x = true
    · by_cases hlt : n < c + 1
      · have hcond : n < c + (xs.countP p + 1) := by omega
        have hk : n + 1 - c ≤ 1 := by omega
        simp [exactlyNGo, hx, hlt, specStopAtMatch, List.countP_cons, hcond, hk]
      · have hc' : c + 1 ≤ n := by omega
        simp only [exactlyNGo, hx, if_true, hlt, if_false]
        rw [ih (c + 1) hc']
        have hcnt : (x :: xs).countP p = xs.countP p + 1 := by
          simp [List.countP_cons, hx]
        rw [hcnt]
        by_cases h2 : n < c + 1 + xs.countP p
        · rw [if_pos h2, if_pos (by omega : n < c + (xs.countP p + 1))]
          have hk : ¬ (n + 1 - c ≤ 1) := by omega
          simp only [specStopAtMatch, hx, if_true, hk, if_false]
          have harg : n + 1 - (c + 1) = n + 1 - c - 1 := by omega
          rw [harg]
        · rw [if_neg h2, if_neg (by omega : ¬ n < c + (xs.countP p + 1))]
    · have hlt : ¬ n < c := by omega
      simp only [exactlyNGo, hx]
      simp only [Bool.false_eq_true, if_false, hlt]
      rw [ih c hc]
      have hcnt : (x :: xs).countP p = xs.countP p := by
        simp [List.countP_cons, hx]
      rw [hcnt]
      by_cases h2 : n < c + xs.countP p
      · rw [if_pos h2, if_pos h2]
        simp [specStopAtMatch, hx]
      · rw [if_neg h2, if_neg h2]

/-- C4: `exactly_n(S, n, P)` is true iff the count of items satisfying P is
exactly n, and it stops immediately the instant the running match count
exceeds n: the items it consumes are exactly the prefix of S up to and
including the (n+1)-th match when the count exceeds n, and all of S
otherwise. -/
theorem exactly_n_iff_count (l : List α) (n : Nat) (p : α → Bool) :
    (exactly_n l n p = true ↔ l.countP p = n) ∧
    exactlyNConsumed l n p =
      (if n < l.countP p then specStopAtMatch p (n + 1) l else l) := by
  constructor
  · have h := exactlyNGo_fst p n l 0
    simpa [exactly_n] using h
  · have h := exactlyNGo_snd p n l 0 (Nat.zero_le n)
    simpa [exactlyNConsumed] using h

/-! Helper lemmas about `exactly_m_n`. -/

theorem exactlyMNGo_snd (pm pn : α → Bool) (m n : Nat) :
    ∀ (l : List α) (cm cn : Nat),
      (exactlyMNGo pm pn m n l cm cn).2 = tagCalls (specMNConsumed pm pn m n l cm cn) := by
  intro l
  induction l with
  | nil => intro cm cn; rfl
  | cons x xs ih =>
    intro cm cn
    by_cases h : m < (if pm x then cm + 1 else cm) ∨ n < (if pn x then cn + 1 else cn)
    · simp [exactlyMNGo, specMNConsumed, h, tagCalls]
    · simp [exactlyMNGo, specMNConsumed, h, tagCalls, ih]

theorem exactlyMNGo_fst_false (pm pn : α → Bool) (m n : Nat) :
    ∀ (l : List α) (cm cn : Nat),
      (m < cm + l.countP pm ∨ n < cn + l.countP pn) →
      (exactlyMNGo pm pn m n l cm cn).1 = false := by
  intro l
  induction l with
  | nil =>
    intro cm cn h
    simp only [List.countP_nil, Nat.add_zero] at h
    simp only [exactlyMNGo, Bool.eq_false_iff, ne_eq, Bool.and_eq_true, beq_iff_eq, not_and]
    omega
  | cons x xs ih =>
    intro cm cn h
    by_cases hab : m < (if pm x then cm + 1 else cm) ∨ n < (if pn x then cn + 1 else cn)
    · simp [exactlyMNGo, hab]
    · have h' : m < (if pm x then cm + 1 else cm) + xs.countP pm ∨
          n < (if pn x then cn + 1 else cn) + xs.countP pn := by
        rcases h with h | h
        · left
          by_cases hpx : pm x = true <;> simp [List.countP_cons, hpx] at h ⊢ <;> omega
        · right
          by_cases hpx : pn x = true <;> simp [List.countP_cons, hpx] at h ⊢ <;> omega
      simp only [exactlyMNGo, hab, if_false]
      exact ih _ _ h'

/-- C5: `exactly_m_n(m, Pm, n, Pn)` invokes `Pm` and then `Pn`, each exactly
once and in that fixed order, on every item it pulls — even after one of the
running counts has reached its threshold — and it aborts, returning false,
the instant either running count exceeds its own threshold: its invocation
log is exactly the spec-prescribed tagged log of the spec-prescribed consumed
prefix, and whenever a count can exceed its threshold the verdict is false. -/
theorem exactly_m_n_invocations (l : List α) (m : Nat) (pm : α → Bool)
    (n : Nat) (pn : α → Bool) :
    exactlyMNLog l m pm n pn = tagCalls (specMNConsumed pm pn m n l 0 0) ∧
    ((m < l.countP pm ∨ n < l.countP pn) → exactly_m_n l m pm n pn = false) := by
  refine ⟨exactlyMNGo_snd pm pn m n l 0 0, fun h => ?_⟩
  exact exactlyMNGo_fst_false pm pn m n l 0 0 (by simpa using h)

/-- C5 witness: with m = 0 and `Pm = (· == 5)` on the sequence `[5, 5]`,
the m-count exceeds its threshold, and `exactly_m_n` indeed returns false. -/
theorem exactly_m_n_invocations_witness :
    (0 < List.countP (fun x => x == 5) [5, 5] ∨
      3 < List.countP (fun x => x == 7) [5, 5]) ∧
    exactly_m_n [5, 5] 0 (fun x => x == 5) 3 (fun x => x == 7) = false :=
  ⟨Or.inl (by decide),
   (exactly_m_n_invocations [5, 5] 0 (fun x => x == 5) 3 (fun x => x == 7)).2
     (Or.inl (by decide))⟩

/-! Helper lemma about `perfectly_balanced`. -/

theorem pbGo_eq (p : α → Bool) :
    ∀ (l : List α) (c t : Nat),
      pbGo p l c t = ((t + l.length) % 2 == 0 && (t + l.length) / 2 == c + l.countP p) := by
  intro l
  induction l with
  | nil => intro c t; simp [pbGo]
  | cons x xs ih =>
    intro c t
    by_cases hx : p x = true
    · simp only [pbGo, hx, if_true, ih, List.countP_cons, List.length_cons]
      have h1 : t + 1 + xs.length = t + (xs.length + 1) := by omega
      have h2 : c + 1 + xs.countP p = c + (xs.countP p + 1) := by omega
      simp [hx, h1, h2]
    · simp only [pbGo, hx, Bool.false_eq_true, if_false, ih, List.countP_cons,
        List.length_cons]
      have h1 : t + 1 + xs.length = t + (xs.length + 1) := by omega
      simp [hx, h1]

/-- C6: `perfectly_balanced(S, P)` is true iff the total number of items in S
is even and exactly half of them satisfy P; on the empty sequence it is
true. -/
theorem perfectly_balanced_iff (l : List α) (p : α → Bool) :
    (perfectly_balanced l p = true ↔
      l.length % 2 = 0 ∧ 2 * l.countP p = l.length) ∧
    perfectly_balanced ([] : List α) p = true := by
  refine ⟨?_, rfl⟩
  rw [perfectly_balanced, pbGo_eq]
  simp only [Nat.zero_add, Bool.and_eq_true, beq_iff_eq]
  constructor <;> rintro ⟨h1, h2⟩ <;> exact ⟨h1, by omega⟩

/-! Helper lemmas about the `Alternate` iterator. -/

theorem alternateRun_eq_spec (fuel : Nat) :
    ∀ (a b : List α) (o : Bool), a.length + b.length < fuel →
      Alternate.run fuel { a := a, b := b, odd := o, done := false } =
        (if o then specAlternate b a else specAlternate a b) := by
  induction fuel with
  | zero => intro a b o h; omega
  | succ fuel ih =>
    intro a b o h
    cases o with
    | false =>
      cases a with
      | nil => simp [Alternate.run, Alternate.next, specAlternate]
      | cons x xs =>
        simp only [Alternate.run, Alternate.next, Bool.not_false, if_false]
        simp only [Bool.false_eq_true, if_false]
        rw [ih xs b true (by simp only [List.length_cons] at h; omega)]
        simp [specAlternate]
    | true =>
      cases b with
      | nil => simp [Alternate.run, Alternate.next, specAlternate]
      | cons y ys =>
        simp only [Alternate.run, Alternate.next, Bool.not_true, if_true,
          Bool.false_eq_true, if_false]
        rw [ih a ys false (by simp only [List.length_cons] at h; omega)]
        simp [specAlternate]

theorem alternateOut_eq_spec (a b : List α) : Alternate.out a b = specAlternate a b := by
  have h := alternateRun_eq_spec (a.length + b.length + 1) a b false (by omega)
  simpa [Alternate.out, Alternate.new] using h

theorem specAlternateLen (N : Nat) :
    ∀ (a b : List α), a.length + b.length ≤ N →
      (specAlternate a b).length =
        (if a.length ≤ b.length then 2 * min a.length b.length
         else 2 * min a.length b.length + 1) := by
  induction N with
  | zero =>
    intro a b h
    cases a with
    | nil => simp [specAlternate]
    | cons x xs => simp only [List.length_cons] at h; omega
  | succ N ih =>
    intro a b h
    cases a with
    | nil => simp [specAlternate]
    | cons x xs =>
      simp only [specAlternate, List.length_cons]
      rw [ih b xs (by simp only [List.length_cons] at h; omega)]
      split_ifs <;> omega

theorem specAlternateGet (i : Nat) :
    ∀ (a b : List α), i < min a.length b.length →
      (specAlternate a b)[2 * i]? = a[i]? ∧ (specAlternate a b)[2 * i + 1]? = b[i]? := by
  induction i with
  | zero =>
    intro a b h
    cases a with
    | nil => simp at h
    | cons x xs =>
      cases b with
      | nil => simp at h
      | cons y ys =>
        simp only [specAlternate]
        have e1 : 2 * 0 = 0 := rfl
        have e2 : 2 * 0 + 1 = 0 + 1 := rfl
        rw [e1, e2]
        simp [List.getElem?_cons_zero, List.getElem?_cons_succ]
  | succ i ih =>
    intro a b h
    cases a with
    | nil => simp at h
    | cons x xs =>
      cases b with
      | nil => simp at h
      | cons y ys =>
        have h' : i < min xs.length ys.length := by
          simp only [List.length_cons] at h; omega
        have hrec := ih xs ys h'
        simp only [specAlternate]
        have e1 : 2 * (i + 1) = 2 * i + 1 + 1 := by omega
        have e2 : 2 * (i + 1) + 1 = 2 * i + 1 + 1 + 1 := by omega
        constructor
        · rw [e1]
          simp only [List.getElem?_cons_succ]
          exact hrec.1
        · rw [e2]
          simp only [List.getElem?_cons_succ]
          exact hrec.2

/-! Claim theorems for the `Alternate` iterator. -/

/-- C7: `alternate(A, B)` yields `A[0], B[0], A[1], B[1], ...`, always
starting with the first source, and stops at the first exhausted pull from
the shorter source: its output is exactly the spec-prescribed alternating
merge, its length is `2 * min(k, j)` when `k ≤ j` and `2 * min(k, j) + 1`
when `j < k`, and its items at positions `2i` and `2i + 1` are `A[i]` and
`B[i]`. -/
theorem alternate_yields_spec (a b : List α) :
    Alternate.out a b = specAlternate a b ∧
    (Alternate.out a b).length =
      (if a.length ≤ b.length then 2 * min a.length b.length
       else 2 * min a.length b.length + 1) ∧
    ∀ i : Nat, i < min a.length b.length →
      (Alternate.out a b)[2 * i]? = a[i]? ∧ (Alternate.out a b)[2 * i + 1]? = b[i]? := by
  have hout := alternateOut_eq_spec a b
  refine ⟨hout, ?_, ?_⟩
  · rw [hout]
    exact specAlternateLen (a.length + b.length) a b (Nat.le_refl _)
  · intro i hi
    rw [hout]
    exact specAlternateGet i a b hi

/-- C7 witness: on the sources `[1, 3]` and `[2, 4]`, position 0 of the
output holds `A[0] = 1` and position 1 holds `B[0] = 2`. -/
theorem alternate_yields_spec_witness :
    (0 : Nat) < min ([1, 3] : List Nat).length ([2, 4] : List Nat).length ∧
    (Alternate.out [1, 3] [2, 4])[2 * 0]? = some 1 ∧
    (Alternate.out [1, 3] [2, 4])[2 * 0 + 1]? = some 2 :=
  ⟨by decide,
   ((alternate_yields_spec [1, 3] [2, 4]).2.2 0 (by decide)).1.trans (by decide),
   ((alternate_yields_spec [1, 3] [2, 4]).2.2 0 (by decide)).2.trans (by decide)⟩

/-- C8: once the `Alternate` iterator has signalled exhaustion its `done`
flag is set, and every pull in the `done` state signals exhaustion again and
leaves the whole state — both owned sources included — untouched. -/
theorem alternate_sticky (st : Alternate α) :
    (st.done = true → st.next = (none, st)) ∧
    ((st.next).1 = none → ((st.next).2).done = true) := by
  constructor
  · intro h
    simp [Alternate.next, h]
  · intro h
    by_cases hd : st.done = true
    · simp [Alternate.next, hd]
    · simp only [Bool.not_eq_true] at hd
      by_cases ho : st.odd = true
      · cases hb : st.b with
        | nil => simp [Alternate.next, hd, ho, hb]
        | cons y ys => simp [Alternate.next, hd, ho, hb] at h
      · simp only [Bool.not_eq_true] at ho
        cases ha : st.a with
        | nil => simp [Alternate.next, hd, ho, ha]
        | cons x xs => simp [Alternate.next, hd, ho, ha] at h

/-- C8 witness: a finished state with items left in the second source keeps
returning exhaustion with unchanged state, and a pull that finds the first
source exhausted sets `done`. -/
theorem alternate_sticky_witness :
    (Alternate.mk ([] : List Nat) [7] false true).next =
      (none, Alternate.mk ([] : List Nat) [7] false true) ∧
    (((Alternate.mk ([] : List Nat) [7] false false).next).2).done = true :=
  ⟨(alternate_sticky _).1 rfl, (alternate_sticky _).2 rfl⟩

/-- C9: the turn flag starts at `First` (`odd = false`, so the first item
comes from the first source) with `done` unset, and every pull from a
not-yet-finished state — the pull that signals exhaustion included — toggles
the turn flag exactly once. -/
theorem alternate_turn_flag (a b : List α) (st : Alternate α) :
    (Alternate.new a b).odd = false ∧ (Alternate.new a b).done = false ∧
    (∀ (x : α) (xs : List α), ((Alternate.new (x :: xs) b).next).1 = some x) ∧
    (st.done = false → ((st.next).2).odd = !st.odd) := by
  refine ⟨rfl, rfl, fun x xs => rfl, fun h => ?_⟩
  by_cases ho : st.odd = true
  · cases hb : st.b with
    | nil => simp [Alternate.next, h, ho, hb]
    | cons y ys => simp [Alternate.next, h, ho, hb]
  · simp only [Bool.not_eq_true] at ho
    cases ha : st.a with
    | nil => simp [Alternate.next, h, ho, ha]
    | cons x xs => simp [Alternate.next, h, ho, ha]

/-- C9 witness: from the freshly constructed state on `[1]` and `[2]`
(where `done` is unset), one pull toggles the turn flag. -/
theorem alternate_turn_flag_witness :
    (Alternate.mk [1] [2] false false).done = false ∧
    (((Alternate.mk [1] [2] false false).next).2).odd =
      !(Alternate.mk [1] [2] false false).odd :=
  ⟨rfl, (alternate_turn_flag ([] : List Nat) [] (Alternate.mk [1] [2] false false)).2.2.2 rfl⟩

end ExoticIter
